import Mathlib

set_option maxHeartbeats 1000000

/-!
Verification development for the qa_application backend core
(`server/src/rateLimiter.ts`, `server/src/agent.ts`, `server/src/tools.ts`).

Each definition below is a shallow embedding of the corresponding TypeScript
function; timestamps are integer milliseconds, JS numbers used as token counts
are modelled as `Int`, and strings are Lean `String`s. File-system and network
side effects are out of scope: functions that perform them are modelled by the
value they compute (in particular, the path a write would go to).
-/

/-! ## String helpers

JS `String.prototype.startsWith` / `endsWith` and substring containment,
modelled over the character list of the string so that they evaluate by
kernel reduction. -/

/-- JS `s.startsWith(pat)`. -/
def strStarts (s pat : String) : Bool :=
  decide (s.toList.take pat.toList.length = pat.toList)

/-- JS `s.endsWith(pat)`. -/
def strEnds (s pat : String) : Bool :=
  decide (s.toList.reverse.take pat.toList.reverse.length = pat.toList.reverse)

/-- Does `pat` occur as a contiguous substring of `l`? (JS `s.includes(pat)`.) -/
def listHasSub (pat : List Char) : List Char → Bool
  | [] => decide (pat = [])
  | c :: rest => decide ((c :: rest).take pat.length = pat) || listHasSub pat rest

/-- JS `s.includes(pat)`. -/
def containsText (s pat : String) : Bool :=
  listHasSub pat.toList s.toList

/-- `startsList p l` holds when the list `l` begins with the list `p`. -/
def startsList {α : Type} (p l : List α) : Prop := ∃ t, p ++ t = l

/-! ## Token Budget Tracker (`rateLimiter.ts`, class `RateLimiter`)

State: `tokenUsageHistory` and the cached `currentTokens` field.
`Date.now()` is passed explicitly as `now`. -/

/-- `rateLimiter.ts` `TokenUsage`: one timestamped token amount. -/
structure TokenUsage where
  tokens : Int
  timestamp : Int
deriving DecidableEq, Repr

/-- The mutable fields of `RateLimiter` relevant to token accounting. -/
structure RateLimiterState where
  tokenUsageHistory : List TokenUsage
  currentTokens : Int
deriving DecidableEq, Repr

/-- The sliding window (`60000` ms) used by `cleanupTokenHistory`. -/
def WINDOW_MS : Int := 60000

/-- The record-retention test of `cleanupTokenHistory`:
`usage.timestamp > oneMinuteAgo` with `oneMinuteAgo = now - 60000`. -/
def inWindow (now : Int) (u : TokenUsage) : Bool :=
  decide (now - WINDOW_MS < u.timestamp)

/-- `reduce((sum, usage) => sum + usage.tokens, 0)` over a usage list. -/
def sumTokens (l : List TokenUsage) : Int :=
  l.foldl (fun sum u => sum + u.tokens) 0

/-- `cleanupTokenHistory` (rateLimiter.ts lines 75-83): drop records older
than one minute and recompute `currentTokens` as the sum of the rest. -/
def cleanupTokenHistory (now : Int) (s : RateLimiterState) : RateLimiterState :=
  let hist := s.tokenUsageHistory.filter (inWindow now)
  { tokenUsageHistory := hist, currentTokens := sumTokens hist }

/-- `recordTokenUsage` (lines 158-165): push a record at `now`, bump the
cached counter, then run `cleanupTokenHistory`. -/
def recordTokenUsage (now tokens : Int) (s : RateLimiterState) : RateLimiterState :=
  cleanupTokenHistory now
    { tokenUsageHistory := s.tokenUsageHistory ++ [{ tokens := tokens, timestamp := now }],
      currentTokens := s.currentTokens + tokens }

/-- The stats record returned by `getTokenStats` (lines 170-178); the
floating-point `percentage` field is omitted. -/
structure TokenStats where
  current : Int
  limit : Int
  available : Int
deriving DecidableEq, Repr

/-- `getTokenStats`: cleanup, then report the cached counter. Returns the
stats together with the mutated state. -/
def getTokenStats (limit now : Int) (s : RateLimiterState) : TokenStats × RateLimiterState :=
  let s' := cleanupTokenHistory now s
  (⟨s'.currentTokens, limit, limit - s'.currentTokens⟩, s')

/-- The per-iteration capacity test of `waitForTokenCapacity` (lines 122-127):
after cleanup, `availableTokens >= requiredTokens` with
`availableTokens = tokensPerMinute - currentTokens`. -/
def hasTokenCapacity (limit now requiredTokens : Int) (s : RateLimiterState) : Bool :=
  let s' := cleanupTokenHistory now s
  decide (requiredTokens ≤ limit - s'.currentTokens)

/-- The token-defaulting at the top of `executeWithRateLimit` (lines 197-201):
`let tokens = estimatedTokens; if (!tokens) tokens = 2000`. JS `!tokens` is
true for `undefined` (`none`) and for `0`. -/
def effectiveEstimate (estimatedTokens : Option Int) : Int :=
  match estimatedTokens with
  | none => 2000
  | some t => if t = 0 then 2000 else t

/-- The reservation step of `executeWithRateLimit` (line 207): record the
(defaulted) estimate. -/
def reserveTokens (now : Int) (estimatedTokens : Option Int) (s : RateLimiterState) :
    RateLimiterState :=
  recordTokenUsage now (effectiveEstimate estimatedTokens) s

/-- The reconciliation step of `executeWithRateLimit` (lines 226-229): if the
actual token usage differs from the reserved estimate, record the delta;
otherwise do nothing. -/
def reconcileActualTokens (now estimate actual : Int) (s : RateLimiterState) :
    RateLimiterState :=
  if actual ≠ estimate then recordTokenUsage now (actual - estimate) s else s

/-- Reservation followed by reconciliation for one successful provider call
whose reserved estimate is `estimate` and reported usage is `actual`. -/
def reserveAndReconcile (now estimate actual : Int) (s : RateLimiterState) :
    RateLimiterState :=
  reconcileActualTokens now estimate actual (recordTokenUsage now estimate s)

/-! ## Request Scheduler queue (`rateLimiter.ts`, `executeWithRateLimit` /
`processRequest`)

A queued call is identified by its priority and its arrival index. The queue
mutation on enqueue is `push` followed by
`sort((a, b) => b.priority - a.priority)`; JS `Array.prototype.sort` is a
stable sort, and the unique stable descending-priority sort is computed here
by stable insertion. -/

/-- `QueuedRequest` (rateLimiter.ts lines 28-33), with the resolution handles
abstracted away and the arrival index made explicit. -/
structure QCall where
  priority : Int
  arrival : Nat
deriving DecidableEq, Repr

/-- Stable insertion for a descending-priority order: the new element goes
before the first strictly smaller priority, hence after all earlier elements
of equal priority. -/
def insertDesc (x : QCall) : List QCall → List QCall
  | [] => [x]
  | y :: ys => if y.priority < x.priority then x :: y :: ys else y :: insertDesc x ys

/-- The stable descending-priority sort
(`sort((a, b) => b.priority - a.priority)`). -/
def sortQueue (l : List QCall) : List QCall :=
  l.foldl (fun acc x => insertDesc x acc) []

/-- The enqueue path of `executeWithRateLimit` (lines 265-274):
`requestQueue.push(...)` then the stable sort. -/
def enqueueRequest (queue : List QCall) (c : QCall) : List QCall :=
  sortQueue (queue ++ [c])

/-- Scheduler state: the call currently executing (`running`), a call already
shifted off the queue and awaiting its `setImmediate` turn (`pending`), and
the sorted queue. `isProcessingQueue` is true exactly when `running` or
`pending` is set. -/
structure SchedState where
  running : Option QCall
  pending : Option QCall
  queue : List QCall
deriving DecidableEq, Repr

/-- Observable scheduler events: a call arriving at `executeWithRateLimit`,
a call beginning execution from the queue, a call completing. -/
inductive SchedEvent where
  | arrive (c : QCall)
  | start (c : QCall)
  | finish (c : QCall)
deriving DecidableEq, Repr

/-- One step of the scheduler, from `executeWithRateLimit` (lines 264-290)
and `processRequest` (lines 295-316):
* `arriveIdle`: a call arrives with `isProcessingQueue` false and executes
  immediately via `processRequest`;
* `arriveRunning` / `arrivePending`: a call arrives while busy and is pushed
  onto the queue, which is then stable-sorted by descending priority;
* `finishEmpty`: the running call completes with an empty queue;
* `finishNext`: the running call completes, the head of the queue is shifted
  off and handed to `setImmediate`;
* `promote`: the `setImmediate` callback runs the shifted call. -/
inductive SchedStep : SchedState → SchedEvent → SchedState → Prop
  | arriveIdle (c : QCall) (q : List QCall) :
      SchedStep ⟨none, none, q⟩ (.arrive c) ⟨some c, none, q⟩
  | arriveRunning (b c : QCall) (q : List QCall) :
      SchedStep ⟨some b, none, q⟩ (.arrive c) ⟨some b, none, enqueueRequest q c⟩
  | arrivePending (p c : QCall) (q : List QCall) :
      SchedStep ⟨none, some p, q⟩ (.arrive c) ⟨none, some p, enqueueRequest q c⟩
  | finishEmpty (b : QCall) :
      SchedStep ⟨some b, none, []⟩ (.finish b) ⟨none, none, []⟩
  | finishNext (b c : QCall) (q : List QCall) :
      SchedStep ⟨some b, none, c :: q⟩ (.finish b) ⟨none, some c, q⟩
  | promote (c : QCall) (q : List QCall) :
      SchedStep ⟨none, some c, q⟩ (.start c) ⟨some c, none, q⟩

/-- Reflexive-transitive closure of `SchedStep`, recording the event trace. -/
inductive Traced : SchedState → List SchedEvent → SchedState → Prop
  | nil (s : SchedState) : Traced s [] s
  | cons {s s' s'' : SchedState} {e : SchedEvent} {es : List SchedEvent} :
      SchedStep s e s' → Traced s' es s'' → Traced s (e :: es) s''

/-- The queued calls that begin execution in a trace, in order. -/
def startsOf (events : List SchedEvent) : List QCall :=
  events.filterMap (fun e => match e with | .start c => some c | _ => none)

/-- The calls a state still owes a `start` event, in the order they will run. -/
def expectedStarts : SchedState → List QCall
  | ⟨some _, none, q⟩ => q
  | ⟨none, some c, q⟩ => c :: q
  | ⟨none, none, _⟩ => []
  | ⟨some _, some c, q⟩ => c :: q

/-- Strict descending-priority order with ties broken by arrival order. -/
def schedPriorityOrder (a b : QCall) : Prop :=
  b.priority < a.priority ∨ (a.priority = b.priority ∧ a.arrival < b.arrival)

instance (a b : QCall) : Decidable (schedPriorityOrder a b) := by
  unfold schedPriorityOrder; infer_instance

/-! ## Message History Manager (`agent.ts`, `pruneMessageHistory`) -/

/-- `MAX_MESSAGES_HISTORY` (agent.ts line 17). -/
def MAX_MESSAGES_HISTORY : Nat := 30

/-- `pruneMessageHistory` (agent.ts lines 101-112): if the history holds more
than the ceiling plus the two anchors, keep the first two messages and the
last `MAX_MESSAGES_HISTORY` ones. `take 2` is `[messages[0], messages[1]]`
and `drop (length - N)` is `slice(-N)` for the list lengths reachable in the
else-branch. -/
def pruneMessageHistory {α : Type} (messages : List α) : List α :=
  if messages.length ≤ MAX_MESSAGES_HISTORY + 2 then messages
  else messages.take 2 ++ messages.drop (messages.length - MAX_MESSAGES_HISTORY)

/-! ## Back-navigation guard (`agent.ts`, `runAgent` lines 716-730) -/

/-- The guarded tool name. -/
def BACK_TOOL : String := "browser_navigate_back"

/-- One tool call through the guard: on `browser_navigate_back` the counter
is incremented and the call is blocked when the incremented counter exceeds
2; any other tool call resets the counter. -/
def navigateBackStep (consecutiveNavigateBack : Nat) (toolName : String) : Nat × Bool :=
  if toolName = BACK_TOOL then
    (consecutiveNavigateBack + 1, decide (consecutiveNavigateBack + 1 > 2))
  else
    (0, false)

/-- The guard run over a sequence of tool calls from counter `c`; `true`
marks a call that is blocked (answered with the explanatory tool-result
message instead of being executed). -/
def navigateBackTrace (c : Nat) : List String → List Bool
  | [] => []
  | name :: rest =>
    (navigateBackStep c name).2 :: navigateBackTrace (navigateBackStep c name).1 rest

/-- The guard within one agent run (counter starts at 0). -/
def navigateBackBlocked (toolNames : List String) : List Bool :=
  navigateBackTrace 0 toolNames

/-- Length of the run of consecutive `BACK_TOOL` calls at the end of a call
sequence, starting from `c` such calls already pending. -/
def trailingRunFrom (c : Nat) : List String → Nat
  | [] => c
  | name :: rest => trailingRunFrom (if name = BACK_TOOL then c + 1 else 0) rest

/-! ## Tool Execution Gateway result inspection (`agent.ts`, `executeTool`
lines 347-398) -/

/-- One entry of an MCP tool result's `content` array. -/
structure MCPContentItem where
  type : String
  text : String
deriving DecidableEq, Repr

/-- An MCP `callTool` response payload as inspected by `executeTool`. -/
structure MCPToolResult where
  content : List MCPContentItem
  isError : Bool
  message : Option String
deriving DecidableEq, Repr

/-- `AgentError` (agent.ts lines 115-125), restricted to the fields the
gateway sets. -/
structure AgentErrorModel where
  message : String
  code : String
  recoverable : Bool
deriving DecidableEq, Repr

/-- `ErrorCodes.TOOL_EXECUTION_FAILED`. -/
def TOOL_EXECUTION_FAILED : String := "TOOL_EXECUTION_FAILED"

/-- `ErrorCodes.MAX_ITERATIONS`. -/
def MAX_ITERATIONS_CODE : String := "MAX_ITERATIONS"

/-- The textual error markers of `executeTool` (lines 361-362):
`text.startsWith('Error:') || text.includes('Unknown error') ||
text.includes('failed to') || text.includes('cannot find')`. -/
def isCriticalErrorText (text : String) : Bool :=
  strStarts text "Error:" || containsText text "Unknown error" ||
    containsText text "failed to" || containsText text "cannot find"

/-- JS `message || 'Unknown error from MCP tool'` over the optional
`message` field. -/
def mcpFallbackMessage (message : Option String) : String :=
  match message with
  | some m => if m ≠ "" then m else "Unknown error from MCP tool"
  | none => "Unknown error from MCP tool"

/-- `(Array.isArray(content) && content[0]?.text) || message || 'Unknown
error from MCP tool'` (agent.ts lines 370-372). -/
def mcpErrorMessage (result : MCPToolResult) : String :=
  match result.content.head? with
  | some item => if item.text ≠ "" then item.text else mcpFallbackMessage result.message
  | none => mcpFallbackMessage result.message

/-- The result-inspection phase of `executeTool` on a transport-successful
MCP result (agent.ts lines 354-377): throw a classified
`TOOL_EXECUTION_FAILED` error on the first text item carrying a critical
error marker, then on the `isError` flag; otherwise return the result. -/
def checkMCPToolResult (result : MCPToolResult) :
    Except AgentErrorModel MCPToolResult :=
  match result.content.find?
      (fun item => item.type == "text" && item.text != "" && isCriticalErrorText item.text) with
  | some item => .error ⟨item.text, TOOL_EXECUTION_FAILED, true⟩
  | none =>
    if result.isError then
      .error ⟨mcpErrorMessage result, TOOL_EXECUTION_FAILED, true⟩
    else
      .ok result

/-! ## Agent Control Loop skeleton (`agent.ts`, `runAgent` lines 587-857)

The LLM is modelled as a function from the call index to the shape of its
response; tool dispatch details are abstracted, keeping the control flow that
decides the terminal outcome. `cleanedUp` records that `cleanup()` (closing
the automation session, lines 568-585) ran before the function returned. -/

/-- The response shapes `runAgent` distinguishes. -/
inductive LLMResponse where
  | finalMessage
  | toolCalls
  | recoverableError (code : String)
  | fatalError (code : String)
deriving DecidableEq, Repr

/-- A terminal result of `runAgent`. -/
structure RunOutcome where
  success : Bool
  errorCode : Option String
  cleanedUp : Bool
  testFiles : Option (List String)
deriving DecidableEq, Repr

/-- `MAX_CONSECUTIVE_ERRORS` (agent.ts line 565). -/
def MAX_CONSECUTIVE_ERRORS : Nat := 3

/-- `listTestFiles` (tools.ts lines 195-216) on a directory listing: keep
exactly the entries ending in `.spec.ts` or `.spec.js`. -/
def listTestFiles (entries : List String) : List String :=
  entries.filter (fun f => strEnds f ".spec.ts" || strEnds f ".spec.js")

/-- The `while (iterations < MAX_ITERATIONS)` loop of `runAgent`, with
`remaining = MAX_ITERATIONS - iterations` as fuel; `k` counts provider
calls. A final (non-tool-call) message ends the run successfully with the
`.spec` files listed; a non-recoverable error or too many consecutive
recoverable errors ends it as a failure; exhausting the fuel falls through
to the `MAX_ITERATIONS` result (agent.ts lines 824-836). Every exit path
runs `cleanup()` first. -/
def runAgentLoop (provider : Nat → LLMResponse) (dirEntries : List String) :
    Nat → Nat → Nat → RunOutcome
  | 0, _, _ => ⟨false, some MAX_ITERATIONS_CODE, true, none⟩
  | remaining + 1, consecutiveErrors, k =>
    match provider k with
    | .finalMessage => ⟨true, none, true, some (listTestFiles dirEntries)⟩
    | .toolCalls => runAgentLoop provider dirEntries remaining 0 (k + 1)
    | .recoverableError code =>
      if consecutiveErrors + 1 ≥ MAX_CONSECUTIVE_ERRORS then ⟨false, some code, true, none⟩
      else runAgentLoop provider dirEntries remaining (consecutiveErrors + 1) (k + 1)
    | .fatalError code => ⟨false, some code, true, none⟩

/-- `runAgent` from the top of its iteration loop. -/
def runAgent (provider : Nat → LLMResponse) (dirEntries : List String)
    (maxIterations : Nat) : RunOutcome :=
  runAgentLoop provider dirEntries maxIterations 0 0

/-! ## Sandboxed artifact write (`tools.ts`, `sanitizePath` / `saveTestFile`)

POSIX path model: a path is an absolute flag plus a list of segments.
`path.normalize`, `path.join` and `path.relative` are embedded at the
segment level; splitting and joining on `'/'` happen only at the string
boundaries, never composed with each other. -/

/-- `MAX_FILE_SIZE` (tools.ts line 9). -/
def MAX_FILE_SIZE : Nat := 1024 * 1024

/-- A segment that is not empty, `.` or `..`. -/
def isPlainSeg (s : String) : Bool :=
  !(s == "") && !(s == ".") && !(s == "..")

/-- Split a list of characters on a separator. -/
def splitChars (sep : Char) : List Char → List (List Char)
  | [] => [[]]
  | c :: rest =>
    let r := splitChars sep rest
    if c = sep then [] :: r
    else
      match r with
      | [] => [[c]]
      | g :: gs => (c :: g) :: gs

/-- The non-empty `'/'`-separated segments of a path string. -/
def splitPath (s : String) : List String :=
  ((splitChars '/' s.toList).map (fun cs => String.mk cs)).filter (fun seg => seg != "")

/-- `path.isAbsolute` / a leading `'/'`. -/
def isAbsolutePath (s : String) : Bool := strStarts s "/"

/-- One segment of `path.normalize`'s stack normalization: `.` is dropped,
`..` pops a preceding plain segment (at the root it is dropped for absolute
paths and kept for relative ones), and plain segments are pushed. The stack
`acc` is kept in reverse order. -/
def normStep (abs : Bool) (acc : List String) (seg : String) : List String :=
  if seg == "." then acc
  else if seg == ".." then
    match acc with
    | [] => if abs then [] else [".."]
    | t :: rest => if t == ".." then ".." :: t :: rest else rest
  else seg :: acc

/-- The normalized segments of a path (`path.normalize` at segment level). -/
def normSegs (abs : Bool) (segs : List String) : List String :=
  (segs.foldl (normStep abs) []).reverse

/-- Join segments back into a path body (no leading `'/'`). -/
def joinSegs (segs : List String) : String := String.intercalate "/" segs

/-- Length of the common leading run of two segment lists. -/
def commonLen : List String → List String → Nat
  | x :: xs, y :: ys => if x == y then commonLen xs ys + 1 else 0
  | _, _ => 0

/-- `path.relative` between two absolute, normalized segment lists: one `..`
for each segment of `fromSegs` past the common part, then the rest of
`toSegs`. -/
def relativeSegs (fromSegs toSegs : List String) : List String :=
  List.replicate (fromSegs.length - commonLen fromSegs toSegs) ".." ++
    toSegs.drop (commonLen fromSegs toSegs)

/-- `sanitizePath` (tools.ts lines 24-34) over the segments of `TESTS_DIR`:
normalize the input, strip the leading `../` repetitions that the regex
`^(\.\.(\/|\\|$))+` removes (on a normalized relative path these are exactly
the leading `..` segments), join under the tests directory, and reject when
the relative path from the tests directory starts with `..` or is absolute.
Returns the resolved path's segments; `none` models the thrown error. -/
def sanitizePathSegs (testsDirSegs : List String) (filePath : String) :
    Option (List String) :=
  let abs := isAbsolutePath filePath
  let normalizedSegs := normSegs abs (splitPath filePath)
  let strippedSegs := if abs then normalizedSegs
    else normalizedSegs.dropWhile (fun s => s == "..")
  let fullSegs := normSegs true (testsDirSegs ++ strippedSegs)
  let relativePath := joinSegs (relativeSegs (normSegs true testsDirSegs) fullSegs)
  if strStarts relativePath ".." || strStarts relativePath "/" then none
  else some fullSegs

/-- The extension whitelist of `saveTestFile` (tools.ts line 63). -/
def hasValidTestExtension (filePath : String) : Bool :=
  strEnds filePath ".spec.ts" || strEnds filePath ".spec.js" ||
    strEnds filePath ".test.ts" || strEnds filePath ".test.js"

/-- `saveTestFile` (tools.ts lines 39-108): input validation, size bound,
extension whitelist, then `sanitizePath`. On success the file is written at
exactly the returned path (segments under `TESTS_DIR`); a `sanitizePath`
throw is caught and surfaced as a failure result, and no write happens. -/
def saveTestFile (testsDirSegs : List String) (filePath content : String) :
    Except String (List String) :=
  if filePath == "" then .error "Invalid filePath: must be a non-empty string"
  else if content == "" then .error "Invalid content: must be a non-empty string"
  else if content.length > MAX_FILE_SIZE then
    .error "Content too large"
  else if !(hasValidTestExtension filePath) then
    .error "Invalid file extension: must be .spec.ts, .spec.js, .test.ts, or .test.js"
  else
    match sanitizePathSegs testsDirSegs filePath with
    | none => .error "Invalid file path: directory traversal detected"
    | some fullSegs => .ok fullSegs

/-- Invariant of the normalization stack (kept in reverse order): plain
segments on top of a run of `..` segments, the latter empty for absolute
paths. -/
def GoodStack (abs : Bool) (acc : List String) : Prop :=
  ∃ front k, acc = front ++ List.replicate k ".."
    ∧ (∀ s ∈ front, isPlainSeg s = true) ∧ (abs = true → k = 0)

/-! ## Theorems -/

/-! ### Token tracker lemmas -/

theorem foldl_sumTokens (l : List TokenUsage) (a : Int) :
    l.foldl (fun sum u => sum + u.tokens) a = a + sumTokens l := by
  induction l generalizing a with
  | nil => simp [sumTokens]
  | cons x xs ih =>
    simp only [sumTokens, List.foldl_cons]
    rw [ih, ih (0 + x.tokens)]
    ring

theorem sumTokens_append (l₁ l₂ : List TokenUsage) :
    sumTokens (l₁ ++ l₂) = sumTokens l₁ + sumTokens l₂ := by
  simp only [sumTokens, List.foldl_append]
  rw [foldl_sumTokens]
  rfl

theorem inWindow_now (now t : Int) : inWindow now (TokenUsage.mk t now) = true := by
  simp only [inWindow, WINDOW_MS, decide_eq_true_eq]
  omega

theorem recordTokenUsage_history (now t : Int) (s : RateLimiterState) :
    (recordTokenUsage now t s).tokenUsageHistory =
      s.tokenUsageHistory.filter (inWindow now) ++ [TokenUsage.mk t now] := by
  have h : (recordTokenUsage now t s).tokenUsageHistory =
      (s.tokenUsageHistory ++ [TokenUsage.mk t now]).filter (inWindow now) := rfl
  rw [h, List.filter_append]
  simp [List.filter_cons, inWindow_now]

theorem recordTokenUsage_currentTokens (now t : Int) (s : RateLimiterState) :
    (recordTokenUsage now t s).currentTokens =
      sumTokens (s.tokenUsageHistory.filter (inWindow now)) + t := by
  have h : (recordTokenUsage now t s).currentTokens =
      sumTokens ((s.tokenUsageHistory ++ [TokenUsage.mk t now]).filter (inWindow now)) := rfl
  rw [h, List.filter_append, sumTokens_append]
  simp [List.filter_cons, inWindow_now, sumTokens]

/-- C2: after every public tracker operation (`recordTokenUsage`,
`getTokenStats`, and the capacity check inside `executeWithRateLimit`'s
wait), the reported current usage is the sum of exactly the usage records
whose timestamps lie within the last 60 seconds, and every retained record
lies within the window, so records older than 60 seconds are never
counted. -/
theorem tracker_reported_usage_matches_window (s : RateLimiterState)
    (now tokens limit required : Int) :
    ((recordTokenUsage now tokens s).currentTokens
        = sumTokens ((recordTokenUsage now tokens s).tokenUsageHistory)
      ∧ (recordTokenUsage now tokens s).tokenUsageHistory
          = (s.tokenUsageHistory ++ [TokenUsage.mk tokens now]).filter (inWindow now)
      ∧ ∀ u ∈ (recordTokenUsage now tokens s).tokenUsageHistory,
          now - WINDOW_MS < u.timestamp)
    ∧ (getTokenStats limit now s).1.current
        = sumTokens (s.tokenUsageHistory.filter (inWindow now))
    ∧ hasTokenCapacity limit now required s
        = decide (required ≤ limit - sumTokens (s.tokenUsageHistory.filter (inWindow now))) := by
  refine ⟨⟨rfl, rfl, ?_⟩, rfl, rfl⟩
  intro u hu
  have h2 : u ∈ (s.tokenUsageHistory ++ [TokenUsage.mk tokens now]).filter (inWindow now) := hu
  have h3 : inWindow now u = true := (List.mem_filter.mp h2).2
  simpa [inWindow, WINDOW_MS, decide_eq_true_eq] using h3

/-- C2 witness: the invariant at a concrete state holding a fresh record, two
stale records and an exactly-60-seconds-old record. -/
theorem tracker_reported_usage_matches_window_witness :
    (recordTokenUsage 100000 500
        (RateLimiterState.mk [TokenUsage.mk 10 30000, TokenUsage.mk 20 39000,
          TokenUsage.mk 40 40000, TokenUsage.mk 70 99000] 140)).currentTokens
      = sumTokens ((recordTokenUsage 100000 500
        (RateLimiterState.mk [TokenUsage.mk 10 30000, TokenUsage.mk 20 39000,
          TokenUsage.mk 40 40000, TokenUsage.mk 70 99000] 140)).tokenUsageHistory)
    ∧ (recordTokenUsage 100000 500
        (RateLimiterState.mk [TokenUsage.mk 10 30000, TokenUsage.mk 20 39000,
          TokenUsage.mk 40 40000, TokenUsage.mk 70 99000] 140)).currentTokens = 570 :=
  ⟨(tracker_reported_usage_matches_window
      (RateLimiterState.mk [TokenUsage.mk 10 30000, TokenUsage.mk 20 39000,
        TokenUsage.mk 40 40000, TokenUsage.mk 70 99000] 140)
      100000 500 25000 1000).1.1,
    by decide⟩

/-! ### Reconciliation (C5) and the zero/negative-token edge case (C6) -/

/-- C5: if the provider-reported actual usage equals the reserved estimate,
the reconciliation step of `executeWithRateLimit` is a no-op on the tracker
state (no delta record is created); and in general the net usage recorded
for a call with reported usage `actual` is exactly `actual` on top of the
surviving prior records — never double-counted, never under-counted. -/
theorem reconciliation_noop_and_exact (s : RateLimiterState) (now estimate actual : Int) :
    (actual = estimate →
      reconcileActualTokens now estimate actual (recordTokenUsage now estimate s)
        = recordTokenUsage now estimate s)
    ∧ (reserveAndReconcile now estimate actual s).currentTokens
        = sumTokens (s.tokenUsageHistory.filter (inWindow now)) + actual := by
  constructor
  · intro h
    simp [reconcileActualTokens, h]
  · by_cases h : actual = estimate
    · simp [reserveAndReconcile, reconcileActualTokens, h,
        recordTokenUsage_currentTokens]
    · simp only [reserveAndReconcile, reconcileActualTokens, if_pos (Ne.symm h ∘ Eq.symm)]
      rw [recordTokenUsage_currentTokens, recordTokenUsage_history,
        List.filter_append, List.filter_filter]
      simp only [Bool.and_self]
      rw [sumTokens_append]
      simp [List.filter_cons, inWindow_now, sumTokens]

/-- C5 witness: estimate 2000, actual 2000 — reconciliation leaves the state
unchanged, and the net recorded usage is the actual cost. -/
theorem reconciliation_noop_and_exact_witness :
    ((2000 : Int) = 2000 →
      reconcileActualTokens 50 2000 2000 (recordTokenUsage 50 2000 (RateLimiterState.mk [] 0))
        = recordTokenUsage 50 2000 (RateLimiterState.mk [] 0))
    ∧ (reserveAndReconcile 50 2000 2000 (RateLimiterState.mk [] 0)).currentTokens
        = sumTokens (([] : List TokenUsage).filter (inWindow 50)) + 2000 :=
  reconciliation_noop_and_exact (RateLimiterState.mk [] 0) 50 2000 2000

/-- C6 counterexample: a reservation request of zero tokens is **not** a
no-op — JS `!tokens` treats `0` as unset, so the default estimate of 2000
tokens is reserved; a negative request is recorded as-is, also changing the
tracker's current usage. The claim "zero or negative requested tokens is a
no-op" is false of the code. -/
theorem zero_negative_reservation_counterexample :
    (reserveTokens 0 (some 0) (RateLimiterState.mk [] 0)).currentTokens = 2000
    ∧ (reserveTokens 0 (some (-100)) (RateLimiterState.mk [] 0)).currentTokens = -100
    ∧ ¬ reserveTokens 0 (some 0) (RateLimiterState.mk [] 0) = RateLimiterState.mk [] 0 := by
  refine ⟨by decide, by decide, ?_⟩
  intro h
  have := congrArg RateLimiterState.currentTokens h
  simp [reserveTokens, recordTokenUsage, cleanupTokenHistory, effectiveEstimate,
    inWindow, WINDOW_MS, sumTokens] at this

/-- C6 amended: a requested amount of zero (like an unspecified one) is
replaced by the default estimate of 2000 tokens, which is reserved as usual;
a negative requested amount is kept, passes the capacity check immediately
(no waiting) whenever current usage does not exceed the limit, and is
recorded as-is, decreasing current usage. -/
theorem zero_negative_reservation_amended (s : RateLimiterState) (now limit t : Int) :
    ((reserveTokens now (some 0) s).currentTokens
        = sumTokens (s.tokenUsageHistory.filter (inWindow now)) + 2000)
    ∧ (t < 0 →
        (sumTokens (s.tokenUsageHistory.filter (inWindow now)) ≤ limit →
          hasTokenCapacity limit now t s = true)
        ∧ (reserveTokens now (some t) s).currentTokens
            = sumTokens (s.tokenUsageHistory.filter (inWindow now)) + t) := by
  constructor
  · simp [reserveTokens, effectiveEstimate, recordTokenUsage_currentTokens]
  · intro ht
    constructor
    · intro hle
      have hcur : (cleanupTokenHistory now s).currentTokens
          = sumTokens (s.tokenUsageHistory.filter (inWindow now)) := rfl
      simp only [hasTokenCapacity, hcur, decide_eq_true_eq]
      omega
    · have hne : t ≠ 0 := by omega
      simp [reserveTokens, effectiveEstimate, hne, recordTokenUsage_currentTokens]

/-- C6 amended witness: at an empty tracker with limit 25000, a request of
`-100` tokens passes the capacity check and is recorded as-is. -/
theorem zero_negative_reservation_amended_witness :
    ((-100 : Int) < 0)
    ∧ (sumTokens (([] : List TokenUsage).filter (inWindow 0)) ≤ (25000 : Int) →
        hasTokenCapacity 25000 0 (-100) (RateLimiterState.mk [] 0) = true)
    ∧ (reserveTokens 0 (some (-100)) (RateLimiterState.mk [] 0)).currentTokens
        = sumTokens (([] : List TokenUsage).filter (inWindow 0)) + (-100) :=
  ⟨by decide,
    ((zero_negative_reservation_amended (RateLimiterState.mk [] 0) 0 25000 (-100)).2
      (by decide)).1,
    ((zero_negative_reservation_amended (RateLimiterState.mk [] 0) 0 25000 (-100)).2
      (by decide)).2⟩

/-! ### Message history pruning (C4) -/

/-- C4: pruning changes nothing at or below the ceiling (`N + 2` messages),
never yields more than `N + 2` messages, is idempotent, preserves the two
anchor messages, and above the ceiling keeps exactly the anchors plus the
`N` most recent messages. -/
theorem prune_history_idempotent_and_bounded {α : Type} (l : List α) :
    (l.length ≤ MAX_MESSAGES_HISTORY + 2 → pruneMessageHistory l = l)
    ∧ (pruneMessageHistory l).length ≤ MAX_MESSAGES_HISTORY + 2
    ∧ pruneMessageHistory (pruneMessageHistory l) = pruneMessageHistory l
    ∧ (pruneMessageHistory l).take 2 = l.take 2
    ∧ (MAX_MESSAGES_HISTORY + 2 < l.length →
        pruneMessageHistory l
          = l.take 2 ++ l.drop (l.length - MAX_MESSAGES_HISTORY)) := by
  have hsmall' : ∀ m : List α, m.length ≤ MAX_MESSAGES_HISTORY + 2 → pruneMessageHistory m = m := by
    intro m hm
    simp [pruneMessageHistory, hm]
  have hsmall : l.length ≤ MAX_MESSAGES_HISTORY + 2 → pruneMessageHistory l = l := hsmall' l
  have hlen : (pruneMessageHistory l).length ≤ MAX_MESSAGES_HISTORY + 2 := by
    by_cases h : l.length ≤ MAX_MESSAGES_HISTORY + 2
    · rw [hsmall h]; exact h
    · have h2 : pruneMessageHistory l
          = l.take 2 ++ l.drop (l.length - MAX_MESSAGES_HISTORY) := by
        simp [pruneMessageHistory, h]
      rw [h2]
      simp only [List.length_append, List.length_take, List.length_drop,
        MAX_MESSAGES_HISTORY] at *
      omega
  refine ⟨hsmall, hlen, hsmall' _ hlen, ?_, ?_⟩
  · by_cases h : l.length ≤ MAX_MESSAGES_HISTORY + 2
    · rw [hsmall h]
    · have h2 : pruneMessageHistory l
          = l.take 2 ++ l.drop (l.length - MAX_MESSAGES_HISTORY) := by
        simp [pruneMessageHistory, h]
      rw [h2]
      have hlen2 : 2 ≤ (l.take 2).length := by
        simp only [List.length_take, MAX_MESSAGES_HISTORY] at *
        omega
      rw [List.take_append_of_le_length hlen2, List.take_take]
      norm_num
  · intro h
    simp [pruneMessageHistory, Nat.not_le.mpr h, Nat.lt_irrefl]

/-- C4 witness: a 33-message history is pruned to the 2 anchors plus the 30
most recent messages. -/
theorem prune_history_idempotent_and_bounded_witness :
    (MAX_MESSAGES_HISTORY + 2 < (List.range 33).length)
    ∧ pruneMessageHistory (List.range 33)
        = (List.range 33).take 2
            ++ (List.range 33).drop ((List.range 33).length - MAX_MESSAGES_HISTORY) :=
  ⟨by decide,
    (prune_history_idempotent_and_bounded (List.range 33)).2.2.2.2 (by decide)⟩

/-! ### Agent loop terminal outcome (C9) -/

theorem runAgentLoop_all_toolCalls (provider : Nat → LLMResponse)
    (dirEntries : List String)
    (h : ∀ k, provider k = LLMResponse.toolCalls) :
    ∀ fuel consecutiveErrors k,
      runAgentLoop provider dirEntries fuel consecutiveErrors k
        = ⟨false, some MAX_ITERATIONS_CODE, true, none⟩ := by
  intro fuel
  induction fuel with
  | zero => intro ce k; rfl
  | succ n ih =>
    intro ce k
    simp only [runAgentLoop, h k]
    exact ih 0 (k + 1)

/-- C9: if every provider response asks for more tool calls (so no final
non-tool-call message ever arrives), the run exhausts `maxIterations` and
returns `success := false` with error code `MAX_ITERATIONS`, with the
automation session cleaned up (browser closed) before returning. -/
theorem max_iterations_failure_and_cleanup (provider : Nat → LLMResponse)
    (dirEntries : List String) (maxIterations : Nat)
    (h : ∀ k, provider k = LLMResponse.toolCalls) :
    runAgent provider dirEntries maxIterations
      = ⟨false, some MAX_ITERATIONS_CODE, true, none⟩ :=
  runAgentLoop_all_toolCalls provider dirEntries h maxIterations 0 0

/-- C9 witness: a provider that always issues tool calls, run with a
3-iteration budget. -/
theorem max_iterations_failure_and_cleanup_witness :
    (∀ k : Nat, (fun _ => LLMResponse.toolCalls) k = LLMResponse.toolCalls)
    ∧ runAgent (fun _ => LLMResponse.toolCalls) ["a.spec.ts"] 3
        = ⟨false, some MAX_ITERATIONS_CODE, true, none⟩ :=
  ⟨fun _ => rfl,
    max_iterations_failure_and_cleanup (fun _ => LLMResponse.toolCalls)
      ["a.spec.ts"] 3 (fun _ => rfl)⟩

/-! ### Test-file listing vs. accepted extensions (C10) -/

/-- C10: `listTestFiles` returns exactly the directory entries ending in
`.spec.ts` or `.spec.js`; yet `saveTestFile` accepts and writes
`login.test.ts`, which is then absent from `listTestFiles`' result and
hence from the `testFiles` reported by a successful `runAgent` run. -/
theorem listTestFiles_spec_extensions_only (entries : List String) :
    (∀ f, f ∈ listTestFiles entries
      ↔ f ∈ entries ∧ (strEnds f ".spec.ts" || strEnds f ".spec.js") = true)
    ∧ saveTestFile ["app", "server", "tests"] "login.test.ts" "content"
        = .ok ["app", "server", "tests", "login.test.ts"]
    ∧ "login.test.ts" ∉ listTestFiles ["login.test.ts"]
    ∧ (runAgent (fun _ => LLMResponse.finalMessage) ["login.test.ts"] 5).success = true
    ∧ (runAgent (fun _ => LLMResponse.finalMessage) ["login.test.ts"] 5).testFiles
        = some [] := by
  refine ⟨?_, rfl, by decide, rfl, by decide⟩
  intro f
  simp [listTestFiles, List.mem_filter]

/-- C10 witness: a `.spec.ts` entry is listed, via the characterization. -/
theorem listTestFiles_spec_extensions_only_witness :
    "login.spec.ts" ∈ listTestFiles ["login.test.ts", "login.spec.ts"] :=
  ((listTestFiles_spec_extensions_only ["login.test.ts", "login.spec.ts"]).1
    "login.spec.ts").mpr ⟨by decide, by decide⟩

/-! ### Back-navigation guard (C7) -/

theorem navigateBackTrace_get? :
    ∀ (names : List String) (c i : Nat), i < names.length →
      (navigateBackTrace c names).get? i
        = some (decide (3 ≤ trailingRunFrom c (names.take (i + 1)))) := by
  intro names
  induction names with
  | nil => intro c i h; simp at h
  | cons name rest ih =>
    intro c i h
    cases i with
    | zero =>
      by_cases hname : name = BACK_TOOL <;>
        simp only [navigateBackTrace, navigateBackStep, hname, List.take_succ_cons,
          List.take_zero, trailingRunFrom, List.get?, if_true, if_false, ite_true, ite_false,
          eq_self_iff_true, Option.some.injEq] <;>
        rfl
    | succ i =>
      have h2 : i < rest.length := by simpa using h
      simp only [navigateBackTrace, List.get?, List.take_succ_cons]
      rw [ih (navigateBackStep c name).1 i h2]
      by_cases hname : name = BACK_TOOL
      · simp [navigateBackStep, hname, trailingRunFrom]
      · simp [navigateBackStep, hname, trailingRunFrom]

theorem trailingRunFrom_append_single (l : List String) (x : String) :
    ∀ c, trailingRunFrom c (l ++ [x])
      = if x = BACK_TOOL then trailingRunFrom c l + 1 else 0 := by
  induction l with
  | nil => intro c; simp [trailingRunFrom]
  | cons y l ih => intro c; simp only [List.cons_append, trailingRunFrom]; exact ih _

/-- C7: within one run, the guard blocks the call at index `i` exactly when
the run of consecutive `browser_navigate_back` calls ending at `i` has
length at least 3 (i.e. exactly the 3rd and subsequent calls of each maximal
back-navigation run are answered locally instead of executed), and any
non-back tool call resets the consecutive counter to zero. -/
theorem navigate_back_guard_blocks_third (toolNames : List String) (i : Nat)
    (h : i < toolNames.length) :
    ((navigateBackBlocked toolNames).get? i = some true
      ↔ 3 ≤ trailingRunFrom 0 (toolNames.take (i + 1)))
    ∧ (∀ name, toolNames.get? i = some name → name ≠ BACK_TOOL →
        trailingRunFrom 0 (toolNames.take (i + 1)) = 0) := by
  constructor
  · rw [navigateBackBlocked, navigateBackTrace_get? toolNames 0 i h]
    simp
  · intro name hget hname
    have htake : toolNames.take (i + 1) = toolNames.take i ++ [name] := by
      rw [List.take_succ]
      simp [← List.get?_eq_getElem?, hget]
    rw [htake, trailingRunFrom_append_single]
    simp [hname]

/-- C7 witness: in the sequence back,back,back,click,back the third call is
blocked (its trailing back-run has length 3). -/
theorem navigate_back_guard_blocks_third_witness :
    (navigateBackBlocked
        [BACK_TOOL, BACK_TOOL, BACK_TOOL, "browser_click", BACK_TOOL]).get? 2
      = some true :=
  ((navigate_back_guard_blocks_third
      [BACK_TOOL, BACK_TOOL, BACK_TOOL, "browser_click", BACK_TOOL] 2
      (by decide)).1).mpr (by decide)

/-! ### Gateway error promotion (C8) -/

/-- C8: whenever a transport-successful MCP tool result carries a critical
textual error marker in a text content item, or its `isError` flag is set,
`executeTool`'s result inspection raises a classified, recoverable
`TOOL_EXECUTION_FAILED` error instead of returning the result as success. -/
theorem mcp_embedded_error_promoted (result : MCPToolResult)
    (h : result.isError = true
      ∨ ∃ item ∈ result.content,
          item.type = "text" ∧ item.text ≠ "" ∧ isCriticalErrorText item.text = true) :
    ∃ e, checkMCPToolResult result = .error e
      ∧ e.code = TOOL_EXECUTION_FAILED ∧ e.recoverable = true := by
  unfold checkMCPToolResult
  cases hfind : result.content.find?
      (fun item => item.type == "text" && item.text != "" && isCriticalErrorText item.text) with
  | some item =>
    exact ⟨⟨item.text, TOOL_EXECUTION_FAILED, true⟩, rfl, rfl, rfl⟩
  | none =>
    rcases h with hisErr | ⟨item, hmem, htype, htext, hcrit⟩
    · simp only [hisErr, if_true]
      exact ⟨⟨mcpErrorMessage result, TOOL_EXECUTION_FAILED, true⟩, rfl, rfl, rfl⟩
    · exfalso
      have hnone := List.find?_eq_none.mp hfind item hmem
      apply hnone
      simp [htype, hcrit, bne_iff_ne, htext]

/-- C8 witness: a transport-successful result whose only text item starts
with `Error:` is promoted to a classified tool-execution failure. -/
theorem mcp_embedded_error_promoted_witness :
    ∃ e, checkMCPToolResult
        (MCPToolResult.mk [MCPContentItem.mk "text" "Error: element not found"] false none)
      = .error e ∧ e.code = TOOL_EXECUTION_FAILED ∧ e.recoverable = true :=
  mcp_embedded_error_promoted
    (MCPToolResult.mk [MCPContentItem.mk "text" "Error: element not found"] false none)
    (Or.inr ⟨MCPContentItem.mk "text" "Error: element not found",
      by decide, by decide, by decide, by decide⟩)

/-! ### Path sandbox (C3) -/

theorem isPlainSeg_spec (s : String) (h : isPlainSeg s = true) :
    s ≠ "" ∧ s ≠ "." ∧ s ≠ ".." := by
  simp only [isPlainSeg, Bool.and_eq_true, Bool.not_eq_true', beq_eq_false_iff_ne] at h
  exact ⟨h.1.1, h.1.2, h.2⟩

theorem isPlainSeg_intro (s : String) (hne : s ≠ "") (hdot : s ≠ ".") (hdd : s ≠ "..") :
    isPlainSeg s = true := by
  simp [isPlainSeg, hne, hdot, hdd]

theorem goodStack_step (abs : Bool) (acc : List String) (seg : String)
    (hseg : seg ≠ "") (h : GoodStack abs acc) : GoodStack abs (normStep abs acc seg) := by
  rcases h with ⟨front, k, rfl, hf, hk⟩
  by_cases hdot : seg = "."
  · refine ⟨front, k, ?_, hf, hk⟩
    simp [normStep, hdot]
  by_cases hdd : seg = ".."
  · cases front with
    | nil =>
      cases k with
      | zero =>
        have hstep : normStep abs ([] ++ List.replicate 0 "..") seg
            = if abs then [] else [".."] := by
          simp [normStep, hdot, hdd]
        rw [hstep]
        cases abs with
        | false => exact ⟨[], 1, by simp [List.replicate], by simp, by simp⟩
        | true => exact ⟨[], 0, by simp, by simp, by simp⟩
      | succ k' =>
        refine ⟨[], k' + 2, ?_, by simp, ?_⟩
        · have hstep : normStep abs ([] ++ List.replicate (k' + 1) "..") seg
              = ".." :: List.replicate (k' + 1) ".." := by
            simp [normStep, hdot, hdd, List.replicate_succ]
          rw [hstep]
          simp [List.replicate_succ]
        · intro ht
          exact absurd (hk ht) (by simp)
    | cons f front' =>
      have hfp := isPlainSeg_spec f (hf f (by simp))
      refine ⟨front', k, ?_, fun s hs => hf s (by simp [hs]), hk⟩
      simp [normStep, hdot, hdd, hfp.2.2]
  · refine ⟨seg :: front, k, ?_, ?_, hk⟩
    · simp [normStep, hdot, hdd]
    · intro s hs
      rcases List.mem_cons.mp hs with rfl | hs'
      · exact isPlainSeg_intro s hseg hdot hdd
      · exact hf s hs'

theorem foldl_goodStack (abs : Bool) :
    ∀ (segs : List String) (acc : List String),
      (∀ s ∈ segs, s ≠ "") → GoodStack abs acc →
      GoodStack abs (segs.foldl (normStep abs) acc) := by
  intro segs
  induction segs with
  | nil => intro acc _ hacc; exact hacc
  | cons seg rest ih =>
    intro acc hne hacc
    simp only [List.foldl_cons]
    exact ih (normStep abs acc seg)
      (fun s hs => hne s (by simp [hs]))
      (goodStack_step abs acc seg (hne seg (by simp)) hacc)

theorem normSegs_structure (abs : Bool) (segs : List String)
    (h : ∀ s ∈ segs, s ≠ "") :
    ∃ front k, normSegs abs segs = List.replicate k ".." ++ front
      ∧ (∀ s ∈ front, isPlainSeg s = true) ∧ (abs = true → k = 0) := by
  obtain ⟨front, k, heq, hf, hk⟩ :=
    foldl_goodStack abs segs [] h ⟨[], 0, by simp, by simp, by simp⟩
  refine ⟨front.reverse, k, ?_, fun s hs => hf s (List.mem_reverse.mp hs), hk⟩
  rw [normSegs, heq, List.reverse_append, List.reverse_replicate]

theorem dropWhile_replicate_dotdot (l : List String) (k : Nat) :
    (List.replicate k ".." ++ l).dropWhile (fun s => s == "..")
      = l.dropWhile (fun s => s == "..") := by
  induction k with
  | zero => simp
  | succ k ih =>
    simp only [List.replicate_succ, List.cons_append, List.dropWhile_cons]
    simp only [beq_self_eq_true, if_true]
    exact ih

theorem dropWhile_of_plain (l : List String) (h : ∀ s ∈ l, isPlainSeg s = true) :
    l.dropWhile (fun s => s == "..") = l := by
  cases l with
  | nil => rfl
  | cons x xs =>
    have hx := isPlainSeg_spec x (h x (by simp))
    simp [List.dropWhile_cons, hx.2.2]

theorem foldl_normStep_plain (abs : Bool) :
    ∀ (l : List String) (acc : List String),
      (∀ s ∈ l, isPlainSeg s = true) →
      l.foldl (normStep abs) acc = l.reverse ++ acc := by
  intro l
  induction l with
  | nil => intro acc _; simp
  | cons x xs ih =>
    intro acc h
    have hx := isPlainSeg_spec x (h x (by simp))
    have hstep : normStep abs acc x = x :: acc := by
      simp [normStep, hx.2.1, hx.2.2]
    simp only [List.foldl_cons, hstep]
    rw [ih (x :: acc) (fun s hs => h s (by simp [hs]))]
    simp

theorem normSegs_of_plain (abs : Bool) (l : List String)
    (h : ∀ s ∈ l, isPlainSeg s = true) : normSegs abs l = l := by
  rw [normSegs, foldl_normStep_plain abs l [] h]
  simp

theorem splitPath_ne_empty (s : String) : ∀ s' ∈ splitPath s, s' ≠ "" := by
  intro s' hs'
  have h := (List.mem_filter.mp hs').2
  simpa using h

theorem sanitizePathSegs_ok_abs (d : List String) (fp : String) (p : List String)
    (habs : isAbsolutePath fp = true)
    (h : sanitizePathSegs d fp = some p) :
    p = normSegs true (d ++ normSegs true (splitPath fp)) := by
  simp only [sanitizePathSegs, habs, eq_self_iff_true, if_true] at h
  split_ifs at h
  simp only [Option.some.injEq] at h
  exact h.symm

theorem sanitizePathSegs_ok_rel (d : List String) (fp : String) (p : List String)
    (habs : isAbsolutePath fp = false)
    (h : sanitizePathSegs d fp = some p) :
    p = normSegs true
      (d ++ (normSegs false (splitPath fp)).dropWhile (fun s => s == "..")) := by
  simp only [sanitizePathSegs, habs, Bool.false_eq_true, if_false] at h
  split_ifs at h
  simp only [Option.some.injEq] at h
  exact h.symm

/-- C3: every successful `saveTestFile` call resolves to a path inside the
tests directory — the resolved segments extend `TESTS_DIR`'s segments — so
no file is ever written outside the sandboxed directory, and any input whose
resolution would escape it is rejected (vacuously, since none resolves
outside). -/
theorem saveTestFile_confined_to_tests_dir (testsDirSegs : List String)
    (hplain : ∀ s ∈ testsDirSegs, isPlainSeg s = true)
    (filePath content : String) (fullSegs : List String)
    (h : saveTestFile testsDirSegs filePath content = .ok fullSegs) :
    startsList testsDirSegs fullSegs := by
  have hsan : sanitizePathSegs testsDirSegs filePath = some fullSegs := by
    unfold saveTestFile at h
    split_ifs at h
    cases hs : sanitizePathSegs testsDirSegs filePath with
    | none => rw [hs] at h; simp at h
    | some v => rw [hs] at h; simp only [Except.ok.injEq] at h; rw [h]
  have key : ∀ stripped : List String, (∀ s ∈ stripped, isPlainSeg s = true) →
      startsList testsDirSegs (normSegs true (testsDirSegs ++ stripped)) := by
    intro stripped hstr
    have hall : ∀ s ∈ testsDirSegs ++ stripped, isPlainSeg s = true := by
      intro s hs
      rcases List.mem_append.mp hs with hs' | hs'
      · exact hplain s hs'
      · exact hstr s hs'
    rw [normSegs_of_plain true _ hall]
    exact ⟨_, rfl⟩
  cases habs : isAbsolutePath filePath with
  | true =>
    rw [sanitizePathSegs_ok_abs testsDirSegs filePath fullSegs habs hsan]
    obtain ⟨front, k, heq, hf, hk⟩ :=
      normSegs_structure true (splitPath filePath) (splitPath_ne_empty filePath)
    refine key _ ?_
    rw [heq, hk rfl]
    simpa using hf
  | false =>
    rw [sanitizePathSegs_ok_rel testsDirSegs filePath fullSegs habs hsan]
    obtain ⟨front, k, heq, hf, hk⟩ :=
      normSegs_structure false (splitPath filePath) (splitPath_ne_empty filePath)
    refine key _ ?_
    rw [heq, dropWhile_replicate_dotdot, dropWhile_of_plain front hf]
    exact hf

/-- C3 witness: a traversal attempt `../../etc/passwd.spec.ts` is accepted
only after confinement — it resolves inside the tests directory. -/
theorem saveTestFile_confined_to_tests_dir_witness :
    (∀ s ∈ ["app", "server", "tests"], isPlainSeg s = true)
    ∧ startsList ["app", "server", "tests"]
        ["app", "server", "tests", "etc", "passwd.spec.ts"] :=
  ⟨by decide,
    saveTestFile_confined_to_tests_dir ["app", "server", "tests"] (by decide)
      "../../etc/passwd.spec.ts" "content"
      ["app", "server", "tests", "etc", "passwd.spec.ts"] rfl⟩

/-! ### Scheduler queue ordering (C1) -/

theorem insertDesc_perm (x : QCall) (l : List QCall) :
    (insertDesc x l).Perm (x :: l) := by
  induction l with
  | nil => exact List.Perm.refl _
  | cons y ys ih =>
    by_cases h : y.priority < x.priority
    · simp [insertDesc, h]
    · simp only [insertDesc, if_neg h]
      exact (ih.cons y).trans (List.Perm.swap x y ys)

theorem mem_insertDesc {z x : QCall} {l : List QCall} :
    z ∈ insertDesc x l ↔ z = x ∨ z ∈ l := by
  rw [(insertDesc_perm x l).mem_iff, List.mem_cons]

theorem insertDesc_sorted (x : QCall) (l : List QCall)
    (h : l.Pairwise (fun a b => b.priority ≤ a.priority)) :
    (insertDesc x l).Pairwise (fun a b => b.priority ≤ a.priority) := by
  induction l with
  | nil => simp [insertDesc]
  | cons y ys ih =>
    rcases List.pairwise_cons.mp h with ⟨hy, hys⟩
    by_cases hlt : y.priority < x.priority
    · rw [insertDesc, if_pos hlt]
      refine List.pairwise_cons.mpr ⟨?_, h⟩
      intro z hz
      rcases List.mem_cons.mp hz with rfl | hz'
      · exact le_of_lt hlt
      · exact le_trans (hy z hz') (le_of_lt hlt)
    · rw [insertDesc, if_neg hlt]
      refine List.pairwise_cons.mpr ⟨?_, ih hys⟩
      intro z hz
      rcases mem_insertDesc.mp hz with rfl | hz'
      · exact le_of_not_lt hlt
      · exact hy z hz'

theorem insertDesc_of_ge (x : QCall) (l : List QCall)
    (h : ∀ y ∈ l, ¬ y.priority < x.priority) : insertDesc x l = l ++ [x] := by
  induction l with
  | nil => rfl
  | cons y ys ih =>
    rw [insertDesc, if_neg (h y (by simp))]
    simp only [List.cons_append, List.cons.injEq, true_and]
    exact ih (fun z hz => h z (by simp [hz]))

theorem sortQueue_append_single (l : List QCall) (x : QCall) :
    sortQueue (l ++ [x]) = insertDesc x (sortQueue l) := by
  simp [sortQueue, List.foldl_append]

theorem sortQueue_sorted (l : List QCall) :
    (sortQueue l).Pairwise (fun a b => b.priority ≤ a.priority) := by
  suffices h : ∀ (l acc : List QCall),
      acc.Pairwise (fun a b => b.priority ≤ a.priority) →
      (l.foldl (fun a x => insertDesc x a) acc).Pairwise
        (fun a b => b.priority ≤ a.priority) by
    exact h l [] (by simp)
  intro l
  induction l with
  | nil => intro acc hacc; exact hacc
  | cons x xs ih =>
    intro acc hacc
    exact ih (insertDesc x acc) (insertDesc_sorted x acc hacc)

theorem sortQueue_of_sorted (l : List QCall)
    (h : l.Pairwise (fun a b => b.priority ≤ a.priority)) : sortQueue l = l := by
  induction l using List.reverseRecOn with
  | nil => rfl
  | append_singleton l x ih =>
    rcases List.pairwise_append.mp h with ⟨hl, _, hcross⟩
    rw [sortQueue_append_single, ih hl, insertDesc_of_ge]
    intro y hy
    exact not_lt.mpr (hcross y hy x (by simp))

theorem sortQueue_idem (l : List QCall) : sortQueue (sortQueue l) = sortQueue l :=
  sortQueue_of_sorted (sortQueue l) (sortQueue_sorted l)

theorem foldl_enqueueRequest (as : List QCall) :
    ∀ l : List QCall, as.foldl enqueueRequest (sortQueue l) = sortQueue (l ++ as) := by
  induction as with
  | nil => intro l; simp
  | cons a as ih =>
    intro l
    have h1 : enqueueRequest (sortQueue l) a = sortQueue (l ++ [a]) := by
      rw [enqueueRequest, sortQueue_append_single, sortQueue_idem,
        ← sortQueue_append_single]
    simp only [List.foldl_cons, h1]
    rw [ih (l ++ [a])]
    simp

theorem foldl_enqueueRequest_nil (as : List QCall) :
    as.foldl enqueueRequest [] = sortQueue as := by
  have h := foldl_enqueueRequest as []
  simpa [sortQueue] using h

theorem insertDesc_pairwiseR (x : QCall) (l : List QCall)
    (h : l.Pairwise schedPriorityOrder)
    (harr : ∀ y ∈ l, y.arrival < x.arrival) :
    (insertDesc x l).Pairwise schedPriorityOrder := by
  induction l with
  | nil => simp [insertDesc]
  | cons y ys ih =>
    rcases List.pairwise_cons.mp h with ⟨hy, hys⟩
    by_cases hlt : y.priority < x.priority
    · rw [insertDesc, if_pos hlt]
      refine List.pairwise_cons.mpr ⟨?_, h⟩
      intro z hz
      rcases List.mem_cons.mp hz with rfl | hz'
      · exact Or.inl hlt
      · rcases hy z hz' with hlt' | ⟨heq, _⟩
        · exact Or.inl (lt_trans hlt' hlt)
        · exact Or.inl (heq ▸ hlt)
    · rw [insertDesc, if_neg hlt]
      refine List.pairwise_cons.mpr
        ⟨?_, ih hys (fun z hz => harr z (by simp [hz]))⟩
      intro z hz
      rcases mem_insertDesc.mp hz with rfl | hz'
      · rcases lt_or_eq_of_le (le_of_not_lt hlt) with hlt' | heq
        · exact Or.inl hlt'
        · exact Or.inr ⟨heq.symm, harr y (by simp)⟩
      · exact hy z hz'

theorem sortQueue_pairwiseR (l : List QCall)
    (h : l.Pairwise (fun a b => a.arrival < b.arrival)) :
    (sortQueue l).Pairwise schedPriorityOrder := by
  suffices haux : ∀ (l acc : List QCall),
      l.Pairwise (fun a b => a.arrival < b.arrival) →
      acc.Pairwise schedPriorityOrder →
      (∀ y ∈ acc, ∀ x ∈ l, y.arrival < x.arrival) →
      (l.foldl (fun a x => insertDesc x a) acc).Pairwise schedPriorityOrder by
    exact haux l [] h (by simp) (by simp)
  intro l
  induction l with
  | nil => intro acc _ hacc _; exact hacc
  | cons x xs ih =>
    intro acc hl hacc hcross
    rcases List.pairwise_cons.mp hl with ⟨hx, hxs⟩
    simp only [List.foldl_cons]
    refine ih (insertDesc x acc) hxs
      (insertDesc_pairwiseR x acc hacc (fun y hy => hcross y hy x (by simp))) ?_
    intro y hy z hz
    rcases mem_insertDesc.mp hy with rfl | hy'
    · exact hx z hz
    · exact hcross y hy' z (by simp [hz])

theorem traced_append {s sF : SchedState} :
    ∀ (t1 t2 : List SchedEvent), Traced s (t1 ++ t2) sF →
      ∃ mid, Traced s t1 mid ∧ Traced mid t2 sF := by
  intro t1
  induction t1 generalizing s with
  | nil => intro t2 h; exact ⟨s, Traced.nil s, h⟩
  | cons e es ih =>
    intro t2 h
    cases h with
    | cons step htr =>
      obtain ⟨mid, h1, h2⟩ := ih _ htr
      exact ⟨mid, Traced.cons step h1, h2⟩

theorem traced_arrivals (b : QCall) :
    ∀ (arrivals : List QCall) (q : List QCall) (s1 : SchedState),
      Traced ⟨some b, none, q⟩ (arrivals.map SchedEvent.arrive) s1 →
      s1 = ⟨some b, none, arrivals.foldl enqueueRequest q⟩ := by
  intro arrivals
  induction arrivals with
  | nil =>
    intro q s1 h
    cases h
    rfl
  | cons a as ih =>
    intro q s1 h
    cases h with
    | cons step htr =>
      cases step with
      | arriveRunning => exact ih _ _ htr

theorem traced_drain {s sF : SchedState} {tr : List SchedEvent}
    (h : Traced s tr sF) :
    (∀ c, SchedEvent.arrive c ∉ tr) →
    startsOf tr ++ expectedStarts sF = expectedStarts s := by
  induction h with
  | nil => intro _; simp [startsOf]
  | @cons s s' s'' e es step htr ih =>
    intro hno
    have hno' : ∀ c, SchedEvent.arrive c ∉ es :=
      fun c hc => hno c (List.mem_cons_of_mem _ hc)
    cases step with
    | arriveIdle c q => exact absurd (List.mem_cons_self _ _) (hno c)
    | arriveRunning b c q => exact absurd (List.mem_cons_self _ _) (hno c)
    | arrivePending p c q => exact absurd (List.mem_cons_self _ _) (hno c)
    | finishEmpty b =>
      have ih' := ih hno'
      simpa [startsOf, expectedStarts] using ih'
    | finishNext b c q =>
      have ih' := ih hno'
      simpa [startsOf, expectedStarts] using ih'
    | promote c q =>
      have ih' := ih hno'
      simp only [startsOf, List.filterMap_cons] at ih' ⊢
      simp only [expectedStarts] at ih' ⊢
      simp [ih']

theorem traced_busy_head {b : QCall} {q : List QCall} {e : SchedEvent}
    {es : List SchedEvent} {sF : SchedState}
    (h : Traced ⟨some b, none, q⟩ (e :: es) sF)
    (hne : ∀ c, e ≠ SchedEvent.arrive c) :
    e = SchedEvent.finish b := by
  cases h with
  | cons step htr =>
    cases step with
    | arriveRunning b c q => exact absurd rfl (hne c)
    | finishEmpty b => rfl
    | finishNext b c q => rfl

/-- C1: in the scheduler's transition system, start from one in-flight call
`b0` with an empty queue; let any calls arrive while it executes, then run
on with no further arrivals. Then (i) no queued call starts before `b0`
finishes — the very first subsequent event is `b0`'s completion; (ii) the
queued calls begin execution exactly in the order of the stable
descending-priority sort of the arrivals (those not yet started remain, in
that order, in `expectedStarts` of the final state — in particular a
completed trace starts them all); and (iii) that order is strictly
descending in priority with ties broken by arrival order. -/
theorem scheduler_strict_priority_fifo
    (b0 : QCall) (arrivals : List QCall) (rest : List SchedEvent) (sF : SchedState)
    (htr : Traced ⟨some b0, none, []⟩ (arrivals.map SchedEvent.arrive ++ rest) sF)
    (hrest : ∀ c, SchedEvent.arrive c ∉ rest)
    (harr : arrivals.Pairwise (fun a b => a.arrival < b.arrival)) :
    ((∃ c, SchedEvent.start c ∈ rest) → rest.head? = some (SchedEvent.finish b0))
    ∧ startsOf rest ++ expectedStarts sF = sortQueue arrivals
    ∧ (sortQueue arrivals).Pairwise schedPriorityOrder := by
  obtain ⟨mid, h1, h2⟩ := traced_append _ _ htr
  have hmid := traced_arrivals b0 arrivals [] mid h1
  subst hmid
  have hq : arrivals.foldl enqueueRequest [] = sortQueue arrivals :=
    foldl_enqueueRequest_nil arrivals
  refine ⟨?_, ?_, sortQueue_pairwiseR arrivals harr⟩
  · rintro ⟨c, hc⟩
    cases rest with
    | nil => simp at hc
    | cons e es =>
      have hne : ∀ c', e ≠ SchedEvent.arrive c' := by
        intro c' he
        exact hrest c' (he ▸ List.mem_cons_self _ _)
      rw [traced_busy_head h2 hne]
      rfl
  · have hdrain := traced_drain h2 hrest
    rw [hdrain]
    simpa [expectedStarts] using hq

/-- C1 witness: in-flight call of priority 0; calls of priorities 1, 5, 3
arrive (in that order) while it executes; the trace then finishes the
in-flight call and runs the queued calls in order 5, 3, 1 — the spec's
scheduler scenario. -/
theorem scheduler_strict_priority_fifo_witness :
    ((∃ c, SchedEvent.start c ∈
        [SchedEvent.finish (QCall.mk 0 0), SchedEvent.start (QCall.mk 5 2),
         SchedEvent.finish (QCall.mk 5 2), SchedEvent.start (QCall.mk 3 3),
         SchedEvent.finish (QCall.mk 3 3), SchedEvent.start (QCall.mk 1 1),
         SchedEvent.finish (QCall.mk 1 1)]) →
      ([SchedEvent.finish (QCall.mk 0 0), SchedEvent.start (QCall.mk 5 2),
        SchedEvent.finish (QCall.mk 5 2), SchedEvent.start (QCall.mk 3 3),
        SchedEvent.finish (QCall.mk 3 3), SchedEvent.start (QCall.mk 1 1),
        SchedEvent.finish (QCall.mk 1 1)]).head?
        = some (SchedEvent.finish (QCall.mk 0 0)))
    ∧ startsOf
        [SchedEvent.finish (QCall.mk 0 0), SchedEvent.start (QCall.mk 5 2),
         SchedEvent.finish (QCall.mk 5 2), SchedEvent.start (QCall.mk 3 3),
         SchedEvent.finish (QCall.mk 3 3), SchedEvent.start (QCall.mk 1 1),
         SchedEvent.finish (QCall.mk 1 1)]
        ++ expectedStarts ⟨none, none, []⟩
        = sortQueue [QCall.mk 1 1, QCall.mk 5 2, QCall.mk 3 3]
    ∧ (sortQueue [QCall.mk 1 1, QCall.mk 5 2, QCall.mk 3 3]).Pairwise
        schedPriorityOrder :=
  scheduler_strict_priority_fifo (QCall.mk 0 0)
    [QCall.mk 1 1, QCall.mk 5 2, QCall.mk 3 3]
    [SchedEvent.finish (QCall.mk 0 0), SchedEvent.start (QCall.mk 5 2),
     SchedEvent.finish (QCall.mk 5 2), SchedEvent.start (QCall.mk 3 3),
     SchedEvent.finish (QCall.mk 3 3), SchedEvent.start (QCall.mk 1 1),
     SchedEvent.finish (QCall.mk 1 1)]
    ⟨none, none, []⟩
    (Traced.cons (SchedStep.arriveRunning (QCall.mk 0 0) (QCall.mk 1 1) [])
      (Traced.cons (SchedStep.arriveRunning (QCall.mk 0 0) (QCall.mk 5 2)
          (enqueueRequest [] (QCall.mk 1 1)))
        (Traced.cons (SchedStep.arriveRunning (QCall.mk 0 0) (QCall.mk 3 3)
            (enqueueRequest (enqueueRequest [] (QCall.mk 1 1)) (QCall.mk 5 2)))
          (Traced.cons (SchedStep.finishNext (QCall.mk 0 0) (QCall.mk 5 2)
              [QCall.mk 3 3, QCall.mk 1 1])
            (Traced.cons (SchedStep.promote (QCall.mk 5 2) [QCall.mk 3 3, QCall.mk 1 1])
              (Traced.cons (SchedStep.finishNext (QCall.mk 5 2) (QCall.mk 3 3)
                  [QCall.mk 1 1])
                (Traced.cons (SchedStep.promote (QCall.mk 3 3) [QCall.mk 1 1])
                  (Traced.cons (SchedStep.finishNext (QCall.mk 3 3) (QCall.mk 1 1) [])
                    (Traced.cons (SchedStep.promote (QCall.mk 1 1) [])
                      (Traced.cons (SchedStep.finishEmpty (QCall.mk 1 1))
                        (Traced.nil ⟨none, none, []⟩)))))))))))
    (by intro c hc; simp at hc)
    (by decide)
